import Mathlib

/-!
Verification of the SQL splitter / cleaner / runner core of
`sql/run_sql.py` (repository `bq-metadata-spike`).

Strings are modelled as `List Char`; every Python function acting on the
SQL text is translated into an executable Lean definition over `List Char`.
-/

namespace RunSql

/-- The single-quote character `'` (code point 39). -/
def sq : Char := Char.ofNat 39

/-- Python whitespace for `str.strip()` / `str.split()`:
space, tab, newline, carriage return, vertical tab, form feed
(ASCII range; the SQL inputs here are ASCII). -/
def isWs (c : Char) : Bool :=
  c = ' ' || c = '\t' || c = '\n' || c = '\r' ||
  c = Char.ofNat 11 || c = Char.ofNat 12

/-- Python `str.lstrip()`: drop leading whitespace. -/
def lstrip (l : List Char) : List Char := l.dropWhile isWs

/-- Python `str.rstrip()`: drop trailing whitespace. -/
def rstrip (l : List Char) : List Char := (l.reverse.dropWhile isWs).reverse

/-- Python `str.strip()`: drop leading and trailing whitespace. -/
def pyStrip (l : List Char) : List Char := rstrip (lstrip l)

/-- The quote-flag update of one scanned character, translated from
`split_statements` (run_sql.py lines 36-39):
`if char == "'" and not in_double_quote: in_single_quote = not in_single_quote`
`elif char == '"' and not in_single_quote: in_double_quote = not in_double_quote`.
Returns the pair `(in_single_quote, in_double_quote)` after the character. -/
def updateQuotes (c : Char) (insq indq : Bool) : Bool × Bool :=
  if c = sq ∧ indq = false then (!insq, indq)
  else if c = '"' ∧ insq = false then (insq, !indq)
  else (insq, indq)

/-- End-of-statement emission of `split_statements` (lines 43-46 and 53-55):
`stmt = ''.join(current).strip(); if stmt: statements.append(stmt)`. -/
def emitStmt (cur : List Char) (stmts : List (List Char)) : List (List Char) :=
  let stmt := pyStrip cur
  if stmt.isEmpty then stmts else stmts ++ [stmt]

/-- The scanning loop of `split_statements` (run_sql.py lines 20-58).
Arguments: remaining input, `current` buffer, `in_single_quote`,
`in_double_quote`, accumulated `statements`.  The first cons pattern is the
escape rule (lines 29-34): a backslash with a following character copies
both and advances two positions; a lone final backslash falls through to
the ordinary-character case.  The semicolon test uses the flags after
`updateQuotes`, exactly as the Python loop tests them after the quote
tracking has run. -/
def splitLoop : List Char → List Char → Bool → Bool → List (List Char) → List (List Char)
  | [], cur, _, _, stmts => emitStmt cur stmts
  | '\\' :: d :: rest, cur, insq, indq, stmts =>
      splitLoop rest (cur ++ ['\\', d]) insq indq stmts
  | c :: rest, cur, insq, indq, stmts =>
      if c = ';' ∧ (updateQuotes c insq indq).1 = false ∧
          (updateQuotes c insq indq).2 = false then
        splitLoop rest [] (updateQuotes c insq indq).1
          (updateQuotes c insq indq).2 (emitStmt cur stmts)
      else
        splitLoop rest (cur ++ [c]) (updateQuotes c insq indq).1
          (updateQuotes c insq indq).2 stmts

/-- `split_statements` (run_sql.py lines 15-58): split SQL content into
individual statements, handling semicolons inside string literals. -/
def split_statements (s : List Char) : List (List Char) :=
  splitLoop s [] false false []

/-- The same scan as `splitLoop`, but recording the raw segment between
consecutive separator semicolons, without the per-statement
`''.join(current).strip()` and without dropping empty segments: used to
state exactly which characters the splitter keeps and which it discards. -/
def segLoop : List Char → List Char → Bool → Bool → List (List Char)
  | [], cur, _, _ => [cur]
  | '\\' :: d :: rest, cur, insq, indq =>
      segLoop rest (cur ++ ['\\', d]) insq indq
  | c :: rest, cur, insq, indq =>
      if c = ';' ∧ (updateQuotes c insq indq).1 = false ∧
          (updateQuotes c insq indq).2 = false then
        cur :: segLoop rest [] (updateQuotes c insq indq).1
          (updateQuotes c insq indq).2
      else
        segLoop rest (cur ++ [c]) (updateQuotes c insq indq).1
          (updateQuotes c insq indq).2

/-- The raw inter-semicolon segments of the input. -/
def segments (s : List Char) : List (List Char) := segLoop s [] false false

/-- Rejoin segments with the separator semicolons that the scan consumed. -/
def joinSemi : List (List Char) → List Char
  | [] => []
  | [x] => x
  | x :: xs => x ++ ';' :: joinSemi xs

/-- The sequence of `(in_single_quote, in_double_quote)` flag pairs after
each processed position of the `split_statements` scan: the escape rule
consumes two characters leaving the flags unchanged, every other
character updates them through `updateQuotes`. -/
def quoteTrace : List Char → Bool → Bool → List (Bool × Bool)
  | [], _, _ => []
  | '\\' :: _ :: rest, insq, indq => (insq, indq) :: quoteTrace rest insq indq
  | c :: rest, insq, indq =>
      updateQuotes c insq indq ::
        quoteTrace rest (updateQuotes c insq indq).1 (updateQuotes c insq indq).2

/-- Python `stmt.split('\n')` : split into lines at newline characters;
the empty string yields the single empty line, matching Python. -/
def splitOnNl : List Char → List (List Char)
  | [] => [[]]
  | c :: rest =>
      if c = '\n' then [] :: splitOnNl rest
      else
        match splitOnNl rest with
        | [] => [[c]]
        | l :: ls => (c :: l) :: ls

/-- Python `'\n'.join(lines)`. -/
def joinNl : List (List Char) → List Char
  | [] => []
  | [l] => l
  | l :: ls => l ++ '\n' :: joinNl ls

/-- The keep test of `clean_statement` (run_sql.py lines 64-66):
`stripped = line.strip(); if stripped and not stripped.startswith('--')`. -/
def keepLine (line : List Char) : Bool :=
  !(pyStrip line).isEmpty && !(['-', '-'].isPrefixOf (pyStrip line))

/-- The line-accumulation loop of `clean_statement` (lines 63-67). -/
def cleanLines : List (List Char) → List (List Char)
  | [] => []
  | line :: rest =>
      if keepLine line then line :: cleanLines rest else cleanLines rest

/-- `clean_statement` (run_sql.py lines 61-69): remove comment-only (and
blank) lines, rejoin with newlines, strip the overall result. -/
def clean_statement (s : List Char) : List Char :=
  pyStrip (joinNl (cleanLines (splitOnNl s)))

/-- Stated from the C6 claim's words, for comparison with the source
definition: drop exactly the lines whose trimmed form starts with `--`,
keep every other line (including blank ones), rejoin with newlines, trim
only the overall result. -/
def claimCleanDropCommentsOnly (s : List Char) : List Char :=
  pyStrip (joinNl ((splitOnNl s).filter
    (fun line => !(['-', '-'].isPrefixOf (pyStrip line)))))

/-- Stated from the amended C6 claim: drop exactly the lines that trim to
empty or whose trimmed form starts with `--`. -/
def specCleanDropBlankAndComments (s : List Char) : List Char :=
  pyStrip (joinNl ((splitOnNl s).filter
    (fun line => !((pyStrip line).isEmpty ||
      ['-', '-'].isPrefixOf (pyStrip line)))))

/-- Python `stmt.split()` with no argument (run_sql.py line 101): the
maximal whitespace-separated words, with an accumulator holding the
current word reversed. -/
def splitWsAux : List Char → List Char → List (List Char)
  | [], acc => if acc.isEmpty then [] else [acc.reverse]
  | c :: rest, acc =>
      if isWs c then
        if acc.isEmpty then splitWsAux rest []
        else acc.reverse :: splitWsAux rest []
      else splitWsAux rest (c :: acc)

/-- Python `stmt.split()`. -/
def pySplitWs (s : List Char) : List (List Char) := splitWsAux s []

/-- Python `' '.join(words)`. -/
def joinSp : List (List Char) → List Char
  | [] => []
  | [w] => w
  | w :: ws => w ++ ' ' :: joinSp ws

/-- `' '.join(stmt.split())` (run_sql.py line 101): collapse every
whitespace run, including newlines, to a single space. -/
def collapseWs (s : List Char) : List Char := joinSp (pySplitWs s)

/-- The preview computation of `run_sql_file` (run_sql.py lines 100-103):
`preview = ' '.join(stmt.split())[:80]; if len(stmt) > 80: preview += '...'`. -/
def preview (stmt : List Char) : List Char :=
  (collapseWs stmt).take 80 ++
    (if 80 < stmt.length then ['.', '.', '.'] else [])

/-- Console events of the execution loop of `run_sql_file`
(lines 105-118): the `[i/N] preview` progress line, the per-statement
success marker, and the failure report carrying the error detail and the
full cleaned statement text. -/
inductive RunEvent (e : Type) where
  | progress (i total : Nat) (pv : List Char)
  | success
  | failure (err : e) (fullStmt : List Char)
deriving DecidableEq

/-- The execution loop of `run_sql_file` (run_sql.py lines 105-118) over
an abstract Query Execution Service `exec` (the `client.query` /
`result()` call): each statement produces a progress event, then either a
success marker and the next iteration, or a failure report followed by
`sys.exit(1)`.  Returns the emitted events and the process exit code. -/
def runLoop {e : Type} (exec : List Char → Except e Unit) (total : Nat) :
    Nat → List (List Char) → List (RunEvent e) × Nat
  | _, [] => ([], 0)
  | i, s :: rest =>
      match exec s with
      | Except.ok _ =>
          (RunEvent.progress i total (preview s) :: RunEvent.success ::
            (runLoop exec total (i + 1) rest).1,
           (runLoop exec total (i + 1) rest).2)
      | Except.error err =>
          ([RunEvent.progress i total (preview s), RunEvent.failure err s], 1)

/-- The execution phase of `run_sql_file`: `enumerate(statements, 1)` with
`N = len(statements)`; exit code 0 when the loop completes. -/
def run_sql {e : Type} (exec : List Char → Except e Unit)
    (stmts : List (List Char)) : List (RunEvent e) × Nat :=
  runLoop exec stmts.length 1 stmts

/-- The event sequence of an all-successful prefix, for stating the
fail-fast theorem. -/
def successEvents {e : Type} (total : Nat) : Nat → List (List Char) → List (RunEvent e)
  | _, [] => []
  | i, s :: rest =>
      RunEvent.progress i total (preview s) :: RunEvent.success ::
        successEvents total (i + 1) rest

/-- The statement-preparation loop of `run_sql_file` (lines 87-93):
clean each raw statement, keep the non-empty results in order. -/
def prepareLoop : List (List Char) → List (List Char)
  | [] => []
  | stmt :: rest =>
      if (clean_statement stmt).isEmpty then prepareLoop rest
      else clean_statement stmt :: prepareLoop rest

/-- The cleaned, non-empty statements `run_sql_file` executes. -/
def preparedStatements (content : List Char) : List (List Char) :=
  prepareLoop (split_statements content)

/-- Python `enumerate(statements, 1)` (line 105). -/
def enumFrom {a : Type} : Nat → List a → List (Nat × a)
  | _, [] => []
  | n, x :: xs => (n, x) :: enumFrom (n + 1) xs

/-- The `(ordinal, statement)` pairs as displayed in the `[i/N]`
progress lines of `run_sql_file`. -/
def numberedStatements (content : List Char) : List (Nat × List Char) :=
  enumFrom 1 (preparedStatements content)

/-- C1 input: `SELECT ';' AS x; SELECT 2;`. -/
def c1Input : List Char :=
  "SELECT ".data ++ [sq, ';', sq] ++ " AS x; SELECT 2;".data

/-- C1 expected first statement: `SELECT ';' AS x`. -/
def c1Stmt1 : List Char := "SELECT ".data ++ [sq, ';', sq] ++ " AS x".data

/-- C2 input: `SELECT 'a\'b';`. -/
def c2Input : List Char :=
  "SELECT ".data ++ [sq, 'a', '\\', sq, 'b', sq, ';']

/-- C2 expected single statement: `SELECT 'a\'b'`. -/
def c2Stmt : List Char := "SELECT ".data ++ [sq, 'a', '\\', sq, 'b', sq]

/-- C7 counterexample input: `-- c;SELECT 1` — the first raw statement is
comment-only and is removed by cleaning. -/
def c7Input : List Char := "-- c;SELECT 1".data

/-- C8 counterexample input: `a`, 81 spaces, `b` — 83 characters whose
whitespace-collapsed form is the 3-character `a b`. -/
def c8Input : List Char := 'a' :: (List.replicate 81 ' ' ++ ['b'])

/-- Fail-fast witness statements. -/
def w1 : List Char := "SELECT 1".data

/-- Fail-fast witness: the failing second statement. -/
def w2 : List Char := "SELECT oops".data

/-- Fail-fast witness: the never-attempted third statement. -/
def w3 : List Char := "SELECT 3".data

/-- Fail-fast witness error detail. -/
def wErr : Nat := 7

/-- Fail-fast witness execution service: fails exactly on `w2`. -/
def wExec (s : List Char) : Except Nat Unit :=
  if s = w2 then Except.error wErr else Except.ok ()

/-- Proof helper for cleaner idempotence: `rstrip` applied to the last
element of a list of lines. -/
def stripLastL : List (List Char) → List (List Char)
  | [] => []
  | [k] => [rstrip k]
  | k :: ks => k :: stripLastL ks

/-- Proof helper for cleaner idempotence: `lstrip` on the first line,
`rstrip` on the last (both on a singleton): the per-line effect of the
overall `strip` after a newline join. -/
def stripFL : List (List Char) → List (List Char)
  | [] => []
  | [k] => [pyStrip k]
  | k :: ks => lstrip k :: stripLastL ks

theorem splitLoop_cons_eq (c : Char) (rest cur : List Char) (insq indq : Bool)
    (stmts : List (List Char)) (hesc : c = '\\' → rest = []) :
    splitLoop (c :: rest) cur insq indq stmts =
      if c = ';' ∧ (updateQuotes c insq indq).1 = false ∧
          (updateQuotes c insq indq).2 = false then
        splitLoop rest [] (updateQuotes c insq indq).1
          (updateQuotes c insq indq).2 (emitStmt cur stmts)
      else
        splitLoop rest (cur ++ [c]) (updateQuotes c insq indq).1
          (updateQuotes c insq indq).2 stmts := by
  rw [splitLoop.eq_def]
  split
  · rename_i heq; cases heq
  · rename_i heq
    injection heq with h1 h2
    have h0 := hesc h1
    subst h2
    cases h0
  · rename_i heq
    injection heq with h1 h2
    subst h1; subst h2; rfl

theorem segLoop_cons_eq (c : Char) (rest cur : List Char) (insq indq : Bool)
    (hesc : c = '\\' → rest = []) :
    segLoop (c :: rest) cur insq indq =
      if c = ';' ∧ (updateQuotes c insq indq).1 = false ∧
          (updateQuotes c insq indq).2 = false then
        cur :: segLoop rest [] (updateQuotes c insq indq).1
          (updateQuotes c insq indq).2
      else
        segLoop rest (cur ++ [c]) (updateQuotes c insq indq).1
          (updateQuotes c insq indq).2 := by
  rw [segLoop.eq_def]
  split
  · rename_i heq; cases heq
  · rename_i heq
    injection heq with h1 h2
    have h0 := hesc h1
    subst h2
    cases h0
  · rename_i heq
    injection heq with h1 h2
    subst h1; subst h2; rfl

theorem quoteTrace_cons_eq (c : Char) (rest : List Char) (insq indq : Bool)
    (hesc : c = '\\' → rest = []) :
    quoteTrace (c :: rest) insq indq =
      updateQuotes c insq indq ::
        quoteTrace rest (updateQuotes c insq indq).1
          (updateQuotes c insq indq).2 := by
  rw [quoteTrace.eq_def]
  split
  · rename_i heq; cases heq
  · rename_i heq
    injection heq with h1 h2
    have h0 := hesc h1
    subst h2
    cases h0
  · rename_i heq
    injection heq with h1 h2
    subst h1; subst h2; rfl

theorem segLoop_ne_nil (l cur : List Char) (insq indq : Bool) :
    segLoop l cur insq indq ≠ [] := by
  induction l, cur, insq, indq using segLoop.induct with
  | case1 cur insq indq => simp [segLoop]
  | case2 d rest cur insq indq ih => simpa [segLoop] using ih
  | case3 c rest cur insq indq hne h ih =>
      have hesc : c = '\\' → rest = [] := by
        intro hc
        rcases rest with _ | ⟨d, r2⟩
        · rfl
        · exact (hne d r2 hc rfl).elim
      rw [segLoop_cons_eq c rest cur insq indq hesc, if_pos h]
      simp
  | case4 c rest cur insq indq hne h ih =>
      have hesc : c = '\\' → rest = [] := by
        intro hc
        rcases rest with _ | ⟨d, r2⟩
        · rfl
        · exact (hne d r2 hc rfl).elim
      rw [segLoop_cons_eq c rest cur insq indq hesc, if_neg h]
      exact ih

theorem joinSemi_cons_of_ne_nil (x : List Char) (xs : List (List Char))
    (hxs : xs ≠ []) : joinSemi (x :: xs) = x ++ ';' :: joinSemi xs := by
  rcases xs with _ | ⟨y, ys⟩
  · exact absurd rfl hxs
  · rfl

theorem joinSemi_segLoop (l cur : List Char) (insq indq : Bool) :
    joinSemi (segLoop l cur insq indq) = cur ++ l := by
  induction l, cur, insq, indq using segLoop.induct with
  | case1 cur insq indq => simp [segLoop, joinSemi]
  | case2 d rest cur insq indq ih => simpa [segLoop] using ih
  | case3 c rest cur insq indq hne h ih =>
      have hesc : c = '\\' → rest = [] := by
        intro hc
        rcases rest with _ | ⟨d, r2⟩
        · rfl
        · exact (hne d r2 hc rfl).elim
      rw [segLoop_cons_eq c rest cur insq indq hesc, if_pos h,
        joinSemi_cons_of_ne_nil _ _ (segLoop_ne_nil _ _ _ _), ih]
      simp [h.1]
  | case4 c rest cur insq indq hne h ih =>
      have hesc : c = '\\' → rest = [] := by
        intro hc
        rcases rest with _ | ⟨d, r2⟩
        · rfl
        · exact (hne d r2 hc rfl).elim
      rw [segLoop_cons_eq c rest cur insq indq hesc, if_neg h]
      simpa using ih

theorem splitLoop_eq_filter_segLoop (l cur : List Char) (insq indq : Bool)
    (stmts : List (List Char)) :
    splitLoop l cur insq indq stmts =
      stmts ++ ((segLoop l cur insq indq).map pyStrip).filter
        (fun t => !t.isEmpty) := by
  induction l, cur, insq, indq, stmts using splitLoop.induct with
  | case1 cur insq indq stmts =>
      by_cases he : (pyStrip cur).isEmpty <;>
        simp [splitLoop, segLoop, emitStmt, he]
  | case2 d rest cur insq indq stmts ih => simpa [splitLoop, segLoop] using ih
  | case3 c rest cur insq indq stmts hne h ih =>
      have hesc : c = '\\' → rest = [] := by
        intro hc
        rcases rest with _ | ⟨d, r2⟩
        · rfl
        · exact (hne d r2 hc rfl).elim
      rw [splitLoop_cons_eq c rest cur insq indq stmts hesc, if_pos h,
        segLoop_cons_eq c rest cur insq indq hesc, if_pos h, ih]
      by_cases he : (pyStrip cur).isEmpty <;> simp [emitStmt, he]
  | case4 c rest cur insq indq stmts hne h ih =>
      have hesc : c = '\\' → rest = [] := by
        intro hc
        rcases rest with _ | ⟨d, r2⟩
        · rfl
        · exact (hne d r2 hc rfl).elim
      rw [splitLoop_cons_eq c rest cur insq indq stmts hesc, if_neg h,
        segLoop_cons_eq c rest cur insq indq hesc, if_neg h]
      exact ih

theorem updateQuotes_excl (c : Char) (insq indq : Bool)
    (h : (insq && indq) = false) :
    ((updateQuotes c insq indq).1 && (updateQuotes c insq indq).2) = false := by
  unfold updateQuotes
  split
  · next hx => rw [hx.2]; simp
  · split
    · next hx => rw [hx.2]; simp
    · exact h

theorem quoteTrace_inv (l : List Char) (insq indq : Bool) :
    (insq && indq) = false →
      ∀ q ∈ quoteTrace l insq indq, (q.1 && q.2) = false := by
  induction l, insq, indq using quoteTrace.induct with
  | case1 insq indq => intro _ q hq; simp [quoteTrace] at hq
  | case2 d rest insq indq ih =>
      intro hx q hq
      rw [show quoteTrace ('\\' :: d :: rest) insq indq =
        (insq, indq) :: quoteTrace rest insq indq from rfl] at hq
      rcases List.mem_cons.mp hq with h1 | h1
      · subst h1; exact hx
      · exact ih hx q h1
  | case3 c rest insq indq hne ih =>
      intro hx q hq
      have hesc : c = '\\' → rest = [] := by
        intro hc
        rcases rest with _ | ⟨d, r2⟩
        · rfl
        · exact (hne d r2 hc rfl).elim
      rw [quoteTrace_cons_eq c rest insq indq hesc] at hq
      rcases List.mem_cons.mp hq with h1 | h1
      · subst h1; exact updateQuotes_excl c insq indq hx
      · exact ih (updateQuotes_excl c insq indq hx) q h1

theorem cleanLines_eq_filter (ls : List (List Char)) :
    cleanLines ls = ls.filter keepLine := by
  induction ls with
  | nil => rfl
  | cons line rest ih =>
      by_cases h : keepLine line <;> simp [cleanLines, List.filter_cons, h, ih]

theorem enumFrom_map_fst {a : Type} (n : Nat) (l : List a) :
    (enumFrom n l).map Prod.fst = List.range' n l.length := by
  induction l generalizing n with
  | nil => rfl
  | cons x xs ih => simp [enumFrom, List.range', ih]

theorem enumFrom_map_snd {a : Type} (n : Nat) (l : List a) :
    (enumFrom n l).map Prod.snd = l := by
  induction l generalizing n with
  | nil => rfl
  | cons x xs ih => simp [enumFrom, ih]

theorem prepareLoop_eq_filter (ls : List (List Char)) :
    prepareLoop ls = (ls.map clean_statement).filter (fun t => !t.isEmpty) := by
  induction ls with
  | nil => rfl
  | cons stmt rest ih =>
      by_cases h : (clean_statement stmt).isEmpty <;>
        simp [prepareLoop, List.filter_cons, h, ih]

theorem joinSp_cons_of_ne_nil (w : List Char) (ws : List (List Char))
    (h : ws ≠ []) : joinSp (w :: ws) = w ++ ' ' :: joinSp ws := by
  rcases ws with _ | ⟨y, ys⟩
  · exact absurd rfl h
  · rfl

theorem joinSp_splitWsAux_length_le (l acc : List Char) :
    (joinSp (splitWsAux l acc)).length ≤ acc.length + l.length := by
  induction l generalizing acc with
  | nil =>
      by_cases h : acc.isEmpty
      · simp [splitWsAux, h, joinSp]
      · simp [splitWsAux, h, joinSp]
  | cons c rest ih =>
      by_cases hw : isWs c
      · by_cases ha : acc.isEmpty
        · have h2 := ih []
          simp only [List.length_nil, Nat.zero_add] at h2
          simp [splitWsAux, hw, ha]
          omega
        · rcases hsp : splitWsAux rest [] with _ | ⟨w, ws⟩
          · simp [splitWsAux, hw, ha, hsp, joinSp]
          · have h2 := ih []
            rw [hsp] at h2
            simp only [List.length_nil, Nat.zero_add] at h2
            simp [splitWsAux, hw, ha, hsp,
              joinSp_cons_of_ne_nil _ _ (List.cons_ne_nil w ws)]
            omega
      · have h2 := ih (c :: acc)
        simp only [List.length_cons] at h2
        simp [splitWsAux, hw]
        omega

theorem collapseWs_length_le (s : List Char) :
    (collapseWs s).length ≤ s.length := by
  simpa using joinSp_splitWsAux_length_le s []


theorem runLoop_fail {e : Type} (exec : List Char → Except e Unit)
    (f : List Char) (post : List (List Char)) (err : e)
    (hf : exec f = Except.error err) :
    ∀ (pre : List (List Char)) (total i : Nat),
      (∀ s ∈ pre, exec s = Except.ok ()) →
      runLoop exec total i (pre ++ f :: post) =
        (successEvents total i pre ++
          [RunEvent.progress (i + pre.length) total (preview f),
           RunEvent.failure err f], 1) := by
  intro pre
  induction pre with
  | nil =>
      intro total i _
      simp [runLoop, hf, successEvents]
  | cons s pre2 ih =>
      intro total i hok
      have hs : exec s = Except.ok () := hok s (List.mem_cons_self s pre2)
      have harith : i + 1 + pre2.length = i + (pre2.length + 1) := by omega
      simp only [List.cons_append, runLoop, hs, List.append_eq]
      rw [ih total (i + 1) (fun t ht => hok t (List.mem_cons_of_mem s ht))]
      simp [successEvents, harith]


theorem dropWhile_idem {a : Type} (p : a → Bool) (l : List a) :
    (l.dropWhile p).dropWhile p = l.dropWhile p := by
  induction l with
  | nil => rfl
  | cons x t ih =>
      by_cases h : p x
      · simp [List.dropWhile_cons, h, ih]
      · simp [List.dropWhile_cons, h]

theorem dropWhile_head_false {a : Type} (p : a → Bool) (l : List a) (c : a)
    (t : List a) (h : l.dropWhile p = c :: t) : p c = false := by
  induction l with
  | nil => cases h
  | cons x t2 ih =>
      by_cases hx : p x
      · exact ih (by simpa [List.dropWhile_cons, hx] using h)
      · rw [List.dropWhile_cons, if_neg hx] at h
        injection h with h1 _
        rw [← h1]
        revert hx
        cases p x <;> simp

theorem dropWhile_append_of_ne_nil {a : Type} (p : a → Bool) (l1 l2 : List a)
    (h : l1.dropWhile p ≠ []) :
    (l1 ++ l2).dropWhile p = l1.dropWhile p ++ l2 := by
  induction l1 with
  | nil => exact absurd rfl h
  | cons x t ih =>
      by_cases hx : p x
      · rw [List.dropWhile_cons, if_pos hx] at h
        simp only [List.cons_append, List.dropWhile_cons, hx, if_pos]
        exact ih h
      · simp [List.dropWhile_cons, hx]

theorem dropWhile_append_of_all {a : Type} (p : a → Bool) (l1 l2 : List a)
    (h : ∀ x ∈ l1, p x = true) :
    (l1 ++ l2).dropWhile p = l2.dropWhile p := by
  induction l1 with
  | nil => rfl
  | cons x t ih =>
      have hx : p x = true := h x (List.mem_cons_self x t)
      simp only [List.cons_append, List.dropWhile_cons, hx, if_pos]
      exact ih (fun y hy => h y (List.mem_cons_of_mem x hy))

theorem mem_dropWhile {a : Type} (p : a → Bool) (l : List a) (c : a)
    (h : c ∈ l.dropWhile p) : c ∈ l := by
  have h2 : c ∈ l.takeWhile p ++ l.dropWhile p := List.mem_append.mpr (Or.inr h)
  rwa [List.takeWhile_append_dropWhile] at h2

theorem lstrip_lstrip (l : List Char) : lstrip (lstrip l) = lstrip l :=
  dropWhile_idem isWs l

theorem rstrip_rstrip (l : List Char) : rstrip (rstrip l) = rstrip l := by
  unfold rstrip
  rw [List.reverse_reverse, dropWhile_idem]

theorem lstrip_eq_nil_iff (l : List Char) :
    lstrip l = [] ↔ ∀ c ∈ l, isWs c = true := List.dropWhile_eq_nil_iff

theorem rstrip_eq_nil_iff (l : List Char) :
    rstrip l = [] ↔ ∀ c ∈ l, isWs c = true := by
  unfold rstrip
  simp [List.dropWhile_eq_nil_iff]

theorem mem_lstrip (l : List Char) (c : Char) (h : c ∈ lstrip l) : c ∈ l :=
  mem_dropWhile isWs l c h

theorem mem_rstrip (l : List Char) (c : Char) (h : c ∈ rstrip l) : c ∈ l := by
  unfold rstrip at h
  rw [List.mem_reverse] at h
  have := mem_dropWhile isWs l.reverse c h
  rwa [List.mem_reverse] at this

theorem mem_pyStrip (l : List Char) (c : Char) (h : c ∈ pyStrip l) : c ∈ l :=
  mem_lstrip l c (mem_rstrip (lstrip l) c h)

theorem lstrip_decomp (l : List Char) : l = l.takeWhile isWs ++ lstrip l :=
  (List.takeWhile_append_dropWhile isWs l).symm

theorem rstrip_decomp (l : List Char) :
    l = rstrip l ++ (l.reverse.takeWhile isWs).reverse := by
  have h := List.takeWhile_append_dropWhile isWs l.reverse
  have h2 := congrArg List.reverse h
  rw [List.reverse_append, List.reverse_reverse] at h2
  exact h2.symm

theorem pyStrip_eq_nil_iff (l : List Char) :
    pyStrip l = [] ↔ ∀ c ∈ l, isWs c = true := by
  unfold pyStrip
  rw [rstrip_eq_nil_iff]
  constructor
  · intro h c hc
    have h2 : c ∈ l.takeWhile isWs ++ lstrip l := by
      rw [← lstrip_decomp l]; exact hc
    rcases List.mem_append.mp h2 with h1 | h1
    · exact List.mem_takeWhile_imp h1
    · exact h c h1
  · intro h c hc
    exact h c (mem_lstrip l c hc)

theorem lstrip_head_false (l : List Char) (c : Char) (t : List Char)
    (h : lstrip l = c :: t) : isWs c = false :=
  dropWhile_head_false isWs l c t h

theorem rstrip_ne_nil_of (l : List Char) (h : ¬∀ c ∈ l, isWs c = true) :
    rstrip l ≠ [] := fun hn => h ((rstrip_eq_nil_iff l).mp hn)

theorem lstrip_append_of_ne_nil (l1 l2 : List Char) (h : lstrip l1 ≠ []) :
    lstrip (l1 ++ l2) = lstrip l1 ++ l2 :=
  dropWhile_append_of_ne_nil isWs l1 l2 h

theorem lstrip_append_of_ws (l1 l2 : List Char)
    (h : ∀ c ∈ l1, isWs c = true) : lstrip (l1 ++ l2) = lstrip l2 :=
  dropWhile_append_of_all isWs l1 l2 h

theorem rstrip_append_of_ne_nil (l1 l2 : List Char) (h : rstrip l2 ≠ []) :
    rstrip (l1 ++ l2) = l1 ++ rstrip l2 := by
  have hne : l2.reverse.dropWhile isWs ≠ [] := by
    intro hn
    apply h
    unfold rstrip
    rw [hn]
    rfl
  unfold rstrip
  rw [List.reverse_append,
    dropWhile_append_of_ne_nil isWs l2.reverse l1.reverse hne,
    List.reverse_append, List.reverse_reverse]

theorem rstrip_head_eq (l : List Char) (c : Char) (t : List Char)
    (h : rstrip l = c :: t) : ∃ t2, l = c :: t2 := by
  have hd := rstrip_decomp l
  rw [h] at hd
  exact ⟨t ++ (l.reverse.takeWhile isWs).reverse, by simpa using hd⟩

theorem lstrip_rstrip_comm (l : List Char) :
    lstrip (rstrip l) = rstrip (lstrip l) := by
  by_cases hall : ∀ c ∈ l, isWs c = true
  · rw [(lstrip_eq_nil_iff l).mpr hall, (rstrip_eq_nil_iff l).mpr hall]
    rfl
  · rcases hdw : lstrip l with _ | ⟨c, t⟩
    · exact absurd ((lstrip_eq_nil_iff l).mp hdw) hall
    · have hc : isWs c = false := lstrip_head_false l c t hdw
      have hink : ¬∀ x ∈ lstrip l, isWs x = true := by
        rw [hdw]
        intro hy
        rw [hy c (List.mem_cons_self c t)] at hc
        cases hc
      have hrne : rstrip (lstrip l) ≠ [] := rstrip_ne_nil_of _ hink
      have hw : ∀ x ∈ l.takeWhile isWs, isWs x = true :=
        fun x hx => List.mem_takeWhile_imp hx
      have h3 : rstrip l = l.takeWhile isWs ++ rstrip (lstrip l) := by
        conv_lhs => rw [lstrip_decomp l]
        exact rstrip_append_of_ne_nil _ _ hrne
      have h4 : lstrip (rstrip l) = lstrip (rstrip (lstrip l)) := by
        rw [h3]
        exact lstrip_append_of_ws _ _ hw
      rcases hr : rstrip (lstrip l) with _ | ⟨c2, t2⟩
      · exact absurd hr hrne
      · rcases rstrip_head_eq (lstrip l) c2 t2 hr with ⟨t3, ht3⟩
        have hcc : c2 = c := by
          rw [hdw] at ht3
          injection ht3 with e1 _
          exact e1.symm
        have hc2 : isWs c2 = false := by rw [hcc]; exact hc
        rw [h4, hr]
        unfold lstrip
        rw [List.dropWhile_cons, if_neg (by simp [hc2])]
        rw [← hdw, hr]

theorem pyStrip_lstrip (l : List Char) : pyStrip (lstrip l) = pyStrip l := by
  unfold pyStrip
  rw [lstrip_lstrip]

theorem pyStrip_rstrip (l : List Char) : pyStrip (rstrip l) = pyStrip l := by
  unfold pyStrip
  rw [lstrip_rstrip_comm l, rstrip_rstrip]

theorem pyStrip_pyStrip (l : List Char) : pyStrip (pyStrip l) = pyStrip l :=
  calc pyStrip (pyStrip l) = pyStrip (rstrip (lstrip l)) := rfl
    _ = pyStrip (lstrip l) := pyStrip_rstrip _
    _ = pyStrip l := pyStrip_lstrip _

theorem keepLine_lstrip (l : List Char) : keepLine (lstrip l) = keepLine l := by
  simp [keepLine, pyStrip_lstrip]

theorem keepLine_rstrip (l : List Char) : keepLine (rstrip l) = keepLine l := by
  simp [keepLine, pyStrip_rstrip]

theorem keepLine_pyStrip (l : List Char) :
    keepLine (pyStrip l) = keepLine l := by
  simp [keepLine, pyStrip_pyStrip]

theorem keepLine_ink (l : List Char) (h : keepLine l = true) :
    ¬∀ c ∈ l, isWs c = true := by
  intro hall
  have h2 : pyStrip l = [] := (pyStrip_eq_nil_iff l).mpr hall
  simp [keepLine, h2] at h


theorem splitOnNl_ne_nil (l : List Char) : splitOnNl l ≠ [] := by
  induction l with
  | nil => simp [splitOnNl]
  | cons c rest ih =>
      by_cases h : c = '\n'
      · simp [splitOnNl, h]
      · rcases hsp : splitOnNl rest with _ | ⟨m, ms⟩
        · exact absurd hsp ih
        · simp [splitOnNl, h, hsp]

theorem splitOnNl_cons_nl (c : Char) (rest : List Char) (h : c = '\n') :
    splitOnNl (c :: rest) = [] :: splitOnNl rest := by
  simp [splitOnNl, h]

theorem splitOnNl_cons_other (c : Char) (rest m : List Char)
    (ms : List (List Char)) (h : ¬c = '\n') (hsp : splitOnNl rest = m :: ms) :
    splitOnNl (c :: rest) = (c :: m) :: ms := by
  simp [splitOnNl, h, hsp]

theorem mem_splitOnNl_no_nl (l : List Char) :
    ∀ x ∈ splitOnNl l, '\n' ∉ x := by
  induction l with
  | nil =>
      intro x hx
      simp [splitOnNl] at hx
      simp [hx]
  | cons c rest ih =>
      intro x hx
      by_cases h : c = '\n'
      · rw [splitOnNl_cons_nl c rest h] at hx
        rcases List.mem_cons.mp hx with h1 | h1
        · subst h1; simp
        · exact ih x h1
      · rcases hsp : splitOnNl rest with _ | ⟨m, ms⟩
        · exact absurd hsp (splitOnNl_ne_nil rest)
        · rw [splitOnNl_cons_other c rest m ms h hsp] at hx
          rcases List.mem_cons.mp hx with h1 | h1
          · subst h1
            intro hmem
            rcases List.mem_cons.mp hmem with h2 | h2
            · exact h h2.symm
            · exact ih m (by rw [hsp]; exact List.mem_cons_self m ms) h2
          · exact ih x (by rw [hsp]; exact List.mem_cons_of_mem m h1)

theorem joinNl_cons_of_ne_nil (x : List Char) (ls : List (List Char))
    (h : ls ≠ []) : joinNl (x :: ls) = x ++ '\n' :: joinNl ls := by
  rcases ls with _ | ⟨y, ys⟩
  · exact absurd rfl h
  · rfl

theorem joinNl_splitOnNl (l : List Char) : joinNl (splitOnNl l) = l := by
  induction l with
  | nil => rfl
  | cons c rest ih =>
      by_cases h : c = '\n'
      · rw [splitOnNl_cons_nl c rest h,
          joinNl_cons_of_ne_nil _ _ (splitOnNl_ne_nil rest), ih, h]
        rfl
      · rcases hsp : splitOnNl rest with _ | ⟨m, ms⟩
        · exact absurd hsp (splitOnNl_ne_nil rest)
        · rw [splitOnNl_cons_other c rest m ms h hsp]
          rw [hsp] at ih
          rcases ms with _ | ⟨m2, ms2⟩
          · simp only [joinNl] at ih ⊢
            rw [ih]
          · rw [joinNl_cons_of_ne_nil m (m2 :: ms2)
              (List.cons_ne_nil m2 ms2)] at ih
            rw [joinNl_cons_of_ne_nil (c :: m) (m2 :: ms2)
              (List.cons_ne_nil m2 ms2), List.cons_append, ih]

theorem splitOnNl_single_of_no_nl (x : List Char) (h : '\n' ∉ x) :
    splitOnNl x = [x] := by
  induction x with
  | nil => rfl
  | cons c t ih =>
      have hc : ¬c = '\n' := fun e => h (by rw [e]; exact List.mem_cons_self _ t)
      have ht : '\n' ∉ t := fun m => h (List.mem_cons_of_mem c m)
      rw [splitOnNl_cons_other c t t [] hc (ih ht)]

theorem splitOnNl_append_nl (x t : List Char) (h : '\n' ∉ x) :
    splitOnNl (x ++ '\n' :: t) = x :: splitOnNl t := by
  induction x with
  | nil => simp [splitOnNl]
  | cons c x2 ih =>
      have hc : ¬c = '\n' := fun e => h (by rw [e]; exact List.mem_cons_self _ x2)
      have hx2 : '\n' ∉ x2 := fun m => h (List.mem_cons_of_mem c m)
      rw [List.cons_append, splitOnNl_cons_other c (x2 ++ '\n' :: t) x2
        (splitOnNl t) hc (ih hx2)]

theorem splitOnNl_joinNl (ls : List (List Char)) (hne : ls ≠ [])
    (h : ∀ x ∈ ls, '\n' ∉ x) : splitOnNl (joinNl ls) = ls := by
  induction ls with
  | nil => exact absurd rfl hne
  | cons x ls2 ih =>
      rcases ls2 with _ | ⟨y, ys⟩
      · exact splitOnNl_single_of_no_nl x (h x (List.mem_cons_self x []))
      · rw [joinNl_cons_of_ne_nil x (y :: ys) (List.cons_ne_nil y ys),
          splitOnNl_append_nl x (joinNl (y :: ys))
            (h x (List.mem_cons_self x (y :: ys))),
          ih (List.cons_ne_nil y ys)
            (fun z hz => h z (List.mem_cons_of_mem x hz))]

theorem mem_joinNl (ls : List (List Char)) (x : List Char) (c : Char)
    (hx : x ∈ ls) (hc : c ∈ x) : c ∈ joinNl ls := by
  induction ls with
  | nil => cases hx
  | cons y ys ih =>
      rcases ys with _ | ⟨z, zs⟩
      · rcases List.mem_cons.mp hx with h1 | h1
        · subst h1; exact hc
        · cases h1
      · rw [joinNl_cons_of_ne_nil y (z :: zs) (List.cons_ne_nil z zs)]
        rcases List.mem_cons.mp hx with h1 | h1
        · subst h1; exact List.mem_append.mpr (Or.inl hc)
        · exact List.mem_append.mpr
            (Or.inr (List.mem_cons_of_mem _ (ih h1)))


theorem stripLastL_cons_of_ne_nil (k : List Char) (ks : List (List Char))
    (h : ks ≠ []) : stripLastL (k :: ks) = k :: stripLastL ks := by
  rcases ks with _ | ⟨y, ys⟩
  · exact absurd rfl h
  · rfl

theorem stripLastL_ne_nil (ks : List (List Char)) (h : ks ≠ []) :
    stripLastL ks ≠ [] := by
  rcases ks with _ | ⟨k, ks2⟩
  · exact absurd rfl h
  · rcases ks2 with _ | ⟨y, ys⟩
    · simp [stripLastL]
    · rw [stripLastL_cons_of_ne_nil k (y :: ys) (List.cons_ne_nil y ys)]
      simp

theorem stripFL_ne_nil (ks : List (List Char)) (h : ks ≠ []) :
    stripFL ks ≠ [] := by
  rcases ks with _ | ⟨k, ks2⟩
  · exact absurd rfl h
  · rcases ks2 with _ | ⟨y, ys⟩
    · simp [stripFL]
    · simp [stripFL]

theorem mem_stripLastL (ks : List (List Char)) (x : List Char)
    (hx : x ∈ stripLastL ks) : ∃ k ∈ ks, x = k ∨ x = rstrip k := by
  induction ks with
  | nil => cases hx
  | cons k ks2 ih =>
      rcases ks2 with _ | ⟨y, ys⟩
      · simp only [stripLastL] at hx
        rcases List.mem_cons.mp hx with h1 | h1
        · exact ⟨k, List.mem_cons_self k [], Or.inr h1⟩
        · cases h1
      · rw [stripLastL_cons_of_ne_nil k (y :: ys) (List.cons_ne_nil y ys)] at hx
        rcases List.mem_cons.mp hx with h1 | h1
        · exact ⟨k, List.mem_cons_self k (y :: ys), Or.inl h1⟩
        · rcases ih h1 with ⟨k2, hk2, hor⟩
          exact ⟨k2, List.mem_cons_of_mem k hk2, hor⟩

theorem mem_stripFL (ks : List (List Char)) (x : List Char)
    (hx : x ∈ stripFL ks) :
    ∃ k ∈ ks, x = k ∨ x = lstrip k ∨ x = rstrip k ∨ x = pyStrip k := by
  rcases ks with _ | ⟨k, ks2⟩
  · cases hx
  · rcases ks2 with _ | ⟨y, ys⟩
    · simp only [stripFL] at hx
      rcases List.mem_cons.mp hx with h1 | h1
      · exact ⟨k, List.mem_cons_self k [], Or.inr (Or.inr (Or.inr h1))⟩
      · cases h1
    · simp only [stripFL] at hx
      rcases List.mem_cons.mp hx with h1 | h1
      · exact ⟨k, List.mem_cons_self k (y :: ys), Or.inr (Or.inl h1)⟩
      · rcases mem_stripLastL (y :: ys) x h1 with ⟨k2, hk2, hor⟩
        refine ⟨k2, List.mem_cons_of_mem k hk2, ?_⟩
        rcases hor with h2 | h2
        · exact Or.inl h2
        · exact Or.inr (Or.inr (Or.inl h2))

theorem keepLine_stripFL (ks : List (List Char))
    (hk : ∀ k ∈ ks, keepLine k = true) :
    ∀ x ∈ stripFL ks, keepLine x = true := by
  intro x hx
  rcases mem_stripFL ks x hx with ⟨k, hkm, hor⟩
  have hkk := hk k hkm
  rcases hor with h | h | h | h
  · rw [h]; exact hkk
  · rw [h, keepLine_lstrip]; exact hkk
  · rw [h, keepLine_rstrip]; exact hkk
  · rw [h, keepLine_pyStrip]; exact hkk

theorem no_nl_stripFL (ks : List (List Char)) (hn : ∀ k ∈ ks, '\n' ∉ k) :
    ∀ x ∈ stripFL ks, '\n' ∉ x := by
  intro x hx hmem
  rcases mem_stripFL ks x hx with ⟨k, hkm, hor⟩
  apply hn k hkm
  rcases hor with h | h | h | h
  · rwa [← h]
  · exact mem_lstrip k _ (h ▸ hmem)
  · exact mem_rstrip k _ (h ▸ hmem)
  · exact mem_pyStrip k _ (h ▸ hmem)

theorem ink_lstrip (l : List Char) (h : ¬∀ c ∈ l, isWs c = true) :
    ¬∀ c ∈ lstrip l, isWs c = true := by
  intro h2
  apply h
  intro c hc
  have h3 : c ∈ l.takeWhile isWs ++ lstrip l := by
    rw [← lstrip_decomp l]; exact hc
  rcases List.mem_append.mp h3 with h1 | h1
  · exact List.mem_takeWhile_imp h1
  · exact h2 c h1

theorem rstrip_joinNl (ls : List (List Char)) (hne : ls ≠ [])
    (h : ∀ x ∈ ls, ¬∀ c ∈ x, isWs c = true) :
    rstrip (joinNl ls) = joinNl (stripLastL ls) := by
  induction ls with
  | nil => exact absurd rfl hne
  | cons k ks ih =>
      rcases ks with _ | ⟨y, ys⟩
      · rfl
      · have hy_ink : ¬∀ c ∈ y, isWs c = true :=
          h y (List.mem_cons_of_mem k (List.mem_cons_self y ys))
        have hex : ¬∀ c ∈ joinNl (y :: ys), isWs c = true := by
          intro hall
          apply hy_ink
          intro c hc
          exact hall c (mem_joinNl (y :: ys) y c (List.mem_cons_self y ys) hc)
        have h1 : rstrip ('\n' :: joinNl (y :: ys)) =
            '\n' :: rstrip (joinNl (y :: ys)) := by
          have h2 := rstrip_append_of_ne_nil ['\n'] (joinNl (y :: ys))
            (rstrip_ne_nil_of _ hex)
          simpa using h2
        rw [joinNl_cons_of_ne_nil k (y :: ys) (List.cons_ne_nil y ys),
          rstrip_append_of_ne_nil k ('\n' :: joinNl (y :: ys))
            (by rw [h1]; simp),
          h1,
          ih (List.cons_ne_nil y ys)
            (fun z hz => h z (List.mem_cons_of_mem k hz)),
          stripLastL_cons_of_ne_nil k (y :: ys) (List.cons_ne_nil y ys),
          joinNl_cons_of_ne_nil k (stripLastL (y :: ys))
            (stripLastL_ne_nil (y :: ys) (List.cons_ne_nil y ys))]

theorem pyStrip_joinNl (ls : List (List Char)) (hne : ls ≠ [])
    (h : ∀ x ∈ ls, ¬∀ c ∈ x, isWs c = true) :
    pyStrip (joinNl ls) = joinNl (stripFL ls) := by
  rcases ls with _ | ⟨k, ks⟩
  · exact absurd rfl hne
  · rcases ks with _ | ⟨y, ys⟩
    · rfl
    · have hk : ¬∀ c ∈ k, isWs c = true := h k (List.mem_cons_self k (y :: ys))
      have hlk : lstrip k ≠ [] := fun hn => hk ((lstrip_eq_nil_iff k).mp hn)
      have hink2 : ∀ x ∈ lstrip k :: y :: ys, ¬∀ c ∈ x, isWs c = true := by
        intro x hx
        rcases List.mem_cons.mp hx with h1 | h1
        · rw [h1]; exact ink_lstrip k hk
        · exact h x (List.mem_cons_of_mem k h1)
      unfold pyStrip
      rw [joinNl_cons_of_ne_nil k (y :: ys) (List.cons_ne_nil y ys),
        lstrip_append_of_ne_nil k ('\n' :: joinNl (y :: ys)) hlk,
        ← joinNl_cons_of_ne_nil (lstrip k) (y :: ys) (List.cons_ne_nil y ys),
        rstrip_joinNl (lstrip k :: y :: ys) (List.cons_ne_nil _ _) hink2,
        stripLastL_cons_of_ne_nil (lstrip k) (y :: ys) (List.cons_ne_nil y ys)]
      rfl

theorem cleanLines_of_all_keep (ls : List (List Char))
    (h : ∀ x ∈ ls, keepLine x = true) : cleanLines ls = ls := by
  rw [cleanLines_eq_filter]
  exact List.filter_eq_self.mpr h

theorem mem_cleanLines (ls : List (List Char)) (x : List Char)
    (h : x ∈ cleanLines ls) : x ∈ ls ∧ keepLine x = true := by
  rw [cleanLines_eq_filter] at h
  exact List.mem_filter.mp h

theorem clean_statement_fixed (ks : List (List Char))
    (hk : ∀ k ∈ ks, keepLine k = true) (hn : ∀ k ∈ ks, '\n' ∉ k) :
    clean_statement (pyStrip (joinNl ks)) = pyStrip (joinNl ks) := by
  by_cases hne : ks = []
  · subst hne
    decide
  · have hink : ∀ x ∈ ks, ¬∀ c ∈ x, isWs c = true :=
      fun x hx => keepLine_ink x (hk x hx)
    have hmain := pyStrip_joinNl ks hne hink
    rw [hmain]
    have hkeep2 := keepLine_stripFL ks hk
    have hnl2 := no_nl_stripFL ks hn
    have hne2 : stripFL ks ≠ [] := stripFL_ne_nil ks hne
    unfold clean_statement
    rw [splitOnNl_joinNl (stripFL ks) hne2 hnl2,
      cleanLines_of_all_keep _ hkeep2, ← hmain]
    exact pyStrip_pyStrip _

end RunSql

open RunSql

/-- C6 (as stated) fails: on the raw statement `a\n\nb` the Cleaner drops
the interior blank line even though, after trimming, it does not start
with `--`; the claim's algorithm (drop only comment lines) would keep it. -/
theorem cleaner_drops_blank_lines :
    clean_statement ['a', '\n', '\n', 'b'] = ['a', '\n', 'b'] ∧
    claimCleanDropCommentsOnly ['a', '\n', '\n', 'b'] = ['a', '\n', '\n', 'b'] ∧
    clean_statement ['a', '\n', '\n', 'b'] ≠
      claimCleanDropCommentsOnly ['a', '\n', '\n', 'b'] := by decide

/-- C6 (amended): the Cleaner drops exactly those lines that, after
trimming, are empty or start with the line-comment marker `--`, keeps
every other line with its original internal formatting, rejoins the kept
lines with newlines, and trims only the overall result. -/
theorem clean_statement_drops_blank_and_comment_lines (s : List Char) :
    clean_statement s = specCleanDropBlankAndComments s := by
  unfold clean_statement specCleanDropBlankAndComments
  rw [cleanLines_eq_filter]
  have hp : keepLine = fun line : List Char =>
      !((pyStrip line).isEmpty || ['-', '-'].isPrefixOf (pyStrip line)) := by
    funext line
    simp [keepLine, Bool.not_or]
  rw [hp]

/-- C1: splitting `SELECT ';' AS x; SELECT 2;` yields exactly the two
statements `SELECT ';' AS x` and `SELECT 2`; the semicolon inside the
single-quoted literal is kept as ordinary text, never as a separator. -/
theorem split_quoted_semicolon_boundary :
    split_statements c1Input = [c1Stmt1, "SELECT 2".data] := by decide

/-- C2: splitting `SELECT 'a\'b';` yields exactly the one statement
`SELECT 'a\'b'`: the backslash-escaped quote copies both characters
without toggling quote state, so the literal stays open and the trailing
semicolon is the only split point. -/
theorem split_escaped_quote :
    split_statements c2Input = [c2Stmt] := by decide

/-- C4 (as stated) fails: on input `" a"` the splitter emits `["a"]`; the
leading space appears in no emitted statement and is not a semicolon, so
the splitter itself discarded a character (by the per-statement strip). -/
theorem splitter_discards_whitespace :
    split_statements [' ', 'a'] = [['a']] ∧
    (∀ t ∈ split_statements [' ', 'a'], ' ' ∉ t) ∧ (' ' : Char) ≠ ';' := by
  decide

/-- C4 (amended): the scan is a lossless partition of the input into raw
segments separated by consumed semicolons — rejoining the segments with
semicolons reproduces the input exactly — and the emitted statements are
precisely those segments after Python `strip`, with empty results
dropped.  So the characters the splitter discards are exactly the
separator semicolons, the leading/trailing whitespace of each segment,
and whitespace-only segments. -/
theorem splitter_lossless_partition (s : List Char) :
    joinSemi (segments s) = s ∧
    split_statements s =
      ((segments s).map pyStrip).filter (fun t => !t.isEmpty) := by
  constructor
  · simpa using joinSemi_segLoop s [] false false
  · simpa using splitLoop_eq_filter_segLoop s [] false false []

/-- C5: quote-state exclusivity — starting from the initial state, at no
scan position are the `in_single_quote` and `in_double_quote` flags
simultaneously true. -/
theorem quote_flags_exclusive (s : List Char) (p : Bool × Bool)
    (hp : p ∈ quoteTrace s false false) : ¬(p.1 = true ∧ p.2 = true) := by
  intro hcontra
  have h := quoteTrace_inv s false false rfl p hp
  rw [hcontra.1, hcontra.2] at h
  exact Bool.false_ne_true h.symm

/-- C5 witness: at the concrete input `a'` the state after the quote
toggle is in the trace and satisfies exclusivity. -/
theorem quote_flags_exclusive_witness :
    ¬(((true : Bool), (false : Bool)).1 = true ∧
      ((true : Bool), (false : Bool)).2 = true) :=
  quote_flags_exclusive ['a', sq] (true, false) (by decide)

/-- C10: a lone backslash as the final character does not trigger the
escape rule: for every buffer and quote state the scan treats it as an
ordinary character, appends it to the current statement without changing
quote state, and it survives into the final emitted statement; concretely
`split_statements "a\\"` is `["a\\"]`. -/
theorem trailing_backslash_ordinary :
    (∀ (cur : List Char) (insq indq : Bool) (stmts : List (List Char)),
      splitLoop ['\\'] cur insq indq stmts = emitStmt (cur ++ ['\\']) stmts) ∧
    (∀ insq indq : Bool, updateQuotes '\\' insq indq = (insq, indq)) ∧
    split_statements ['a', '\\'] = [['a', '\\']] := by
  refine ⟨?_, by decide, by decide⟩
  intro cur insq indq stmts
  rw [splitLoop_cons_eq '\\' [] cur insq indq stmts (fun _ => rfl),
    if_neg (fun hc => absurd hc.1 (by decide))]
  rfl

/-- C7 (as stated) fails: in `-- c;SELECT 1` the splitter emits two
non-empty raw statements, and cleaning removes the first (comment-only)
one; the `[i/N]` numbering then reports `SELECT 1` as statement 1, not as
statement 2 of the pre-cleaning assignment the claim demands. -/
theorem ordinals_assigned_after_cleaning :
    split_statements c7Input = ["-- c".data, "SELECT 1".data] ∧
    numberedStatements c7Input = [(1, "SELECT 1".data)] ∧
    (2, "SELECT 1".data) ∉ numberedStatements c7Input := by decide

/-- C7 (amended): statement ordinals are assigned after cleaning, over
the cleaned non-empty statements: they form the strictly increasing,
gapless, 1-based sequence 1..N over exactly the executed statements, and
the executed sequence is an order-preserving subsequence of the cleaned
raw statements. -/
theorem statement_numbering_post_cleaning (content : List Char) :
    (numberedStatements content).map Prod.fst =
      List.range' 1 (preparedStatements content).length ∧
    (numberedStatements content).map Prod.snd = preparedStatements content ∧
    (preparedStatements content).Sublist
      ((split_statements content).map clean_statement) := by
  refine ⟨enumFrom_map_fst 1 _, enumFrom_map_snd 1 _, ?_⟩
  rw [preparedStatements, prepareLoop_eq_filter]
  exact List.filter_sublist _

/-- C8 (as stated) fails: on the 83-character statement `a`, 81 spaces,
`b`, whose collapsed single-line form `a b` is only 3 characters and is
not cut by the 80-character truncation, the truncation marker is still
appended, because the code keys the marker on `len(stmt) > 80` for the
original statement, not on the collapsed text being cut. -/
theorem marker_despite_uncut_preview :
    preview c8Input = ['a', ' ', 'b', '.', '.', '.'] ∧
    collapseWs c8Input = ['a', ' ', 'b'] ∧
    (collapseWs c8Input).length ≤ 80 := by decide

/-- C8 (amended): the Preview is the first 80 characters of the
whitespace-collapsed single-line text, and the truncation marker is
appended if and only if the original cleaned statement is longer than 80
characters (not iff the collapsed text was cut); in particular, whenever
the statement is at most 80 characters long the preview is exactly the
whole collapsed text, uncut. -/
theorem preview_take_and_marker (s : List Char) :
    preview s = (collapseWs s).take 80 ++
      (if 80 < s.length then ['.', '.', '.'] else []) ∧
    (s.length ≤ 80 → preview s = collapseWs s) := by
  refine ⟨rfl, fun h => ?_⟩
  have hc : (collapseWs s).length ≤ 80 := le_trans (collapseWs_length_le s) h
  simp [preview, List.take_of_length_le hc, Nat.not_lt.mpr h]

/-- C8 amended, witness at the concrete statement `SELECT 2`. -/
theorem preview_take_and_marker_witness :
    preview "SELECT 2".data = collapseWs "SELECT 2".data :=
  (preview_take_and_marker "SELECT 2".data).2 (by decide)

/-- C3: the Runner is fail-fast.  For statements `pre ++ f :: post` where
every statement of `pre` executes successfully and `f` is the first to
fail with error `err`, the run executes `pre` in order with a progress
line and a success marker each, attempts `f` (progress line, then a
failure report carrying the error detail and the full cleaned statement
text, not the truncated preview), emits nothing for — and never submits —
any statement of `post`, and exits with the non-zero batch-failure code. -/
theorem runner_fail_fast {e : Type} (exec : List Char → Except e Unit)
    (pre : List (List Char)) (f : List Char) (post : List (List Char))
    (err : e) (hok : ∀ s ∈ pre, exec s = Except.ok ())
    (hf : exec f = Except.error err) :
    run_sql exec (pre ++ f :: post) =
      (successEvents (pre ++ f :: post).length 1 pre ++
        [RunEvent.progress (pre.length + 1) (pre ++ f :: post).length
          (preview f),
         RunEvent.failure err f], 1) ∧
    (run_sql exec (pre ++ f :: post)).2 ≠ 0 := by
  have h := runLoop_fail exec f post err hf pre (pre ++ f :: post).length 1 hok
  rw [Nat.add_comm 1 pre.length] at h
  constructor
  · exact h
  · rw [show run_sql exec (pre ++ f :: post) =
      runLoop exec (pre ++ f :: post).length 1 (pre ++ f :: post) from rfl, h]
    simp

/-- C3 witness: three concrete statements where the second fails. -/
theorem runner_fail_fast_witness :
    run_sql wExec ([w1] ++ w2 :: [w3]) =
      (successEvents ([w1] ++ w2 :: [w3]).length 1 [w1] ++
        [RunEvent.progress ([w1].length + 1) ([w1] ++ w2 :: [w3]).length
          (preview w2),
         RunEvent.failure wErr w2], 1) ∧
    (run_sql wExec ([w1] ++ w2 :: [w3])).2 ≠ 0 :=
  runner_fail_fast wExec [w1] w2 [w3] wErr
    (by intro s hs; rw [List.mem_singleton] at hs; subst hs; rfl)
    (by rfl)

/-- C9: the Cleaner is idempotent — applying the comment/blank line
removal, newline rejoin, and overall trim a second time changes nothing. -/
theorem clean_statement_idempotent (s : List Char) :
    clean_statement (clean_statement s) = clean_statement s := by
  have hks_keep : ∀ k ∈ cleanLines (splitOnNl s), keepLine k = true :=
    fun k hk => (mem_cleanLines _ k hk).2
  have hks_nl : ∀ k ∈ cleanLines (splitOnNl s), '\n' ∉ k :=
    fun k hk => mem_splitOnNl_no_nl s k (mem_cleanLines _ k hk).1
  exact clean_statement_fixed (cleanLines (splitOnNl s)) hks_keep hks_nl
